import Mathlib

/-!
Verification of the terminal rendering and text-formatting subsystem of
`pull-request-hypedoc`.

Strings are modelled as `List Char`.  The embedded functions follow the
TypeScript source: the box renderer, the commit-time backtick stripping and
the empty-diff guard come from `src/generateCommitMessage.ts`; the core
helpers `visibleLength`, `truncatePath`, `cleanCommitMessage` and
`calculateBoxValues` live in a module (`main.ts`) whose implementation is not
part of the provided sources (only its test suite is), so those are modelled
from the specification, as indicated on each definition.
-/

namespace Hypedoc

/-- The JavaScript whitespace characters relevant to `String.prototype.trim`
(the subset that can actually occur in commit messages / diffs). -/
def jsWhitespace (c : Char) : Bool :=
  c == ' ' || c == '\t' || c == '\n' || c == '\r' || c == '\x0b' || c == '\x0c'

/-- JavaScript `String.prototype.trim`: drop leading and trailing whitespace. -/
def jsTrim (s : List Char) : List Char :=
  ((s.dropWhile jsWhitespace).reverse.dropWhile jsWhitespace).reverse

/-- Holds when the string contains no ESC character (no styling sequences). -/
def escFree (s : List Char) : Bool :=
  s.all (fun c => c != '\x1b')

/-- States of the CSI-escape scanner: outside a sequence, just after ESC,
inside a `ESC [ ... letter` sequence. -/
inductive AnsiSt : Type
  | out : AnsiSt
  | esc : AnsiSt
  | csi : AnsiSt
deriving DecidableEq

/-- One-pass scanner stripping CSI escape sequences (`ESC '[' ... letter`),
as the spec's VisibleWidth component requires.  An ESC not followed by `[`
is kept as an ordinary character. -/
def stripAnsiGo : AnsiSt → List Char → List Char
  | .out, [] => []
  | .out, c :: r => if c = '\x1b' then stripAnsiGo .esc r else c :: stripAnsiGo .out r
  | .esc, [] => ['\x1b']
  | .esc, c :: r =>
      if c = '[' then stripAnsiGo .csi r
      else if c = '\x1b' then '\x1b' :: stripAnsiGo .esc r
      else '\x1b' :: c :: stripAnsiGo .out r
  | .csi, [] => []
  | .csi, c :: r => if c.isAlpha then stripAnsiGo .out r else stripAnsiGo .csi r

/-- Strip all CSI escape sequences from a string. -/
def stripAnsi (s : List Char) : List Char :=
  stripAnsiGo .out s

/-- Function `visibleLength` of the VisibleWidth component: the on-screen
width of a string, counting each character outside an escape sequence as one
column. -/
def visibleLength (s : List Char) : Nat :=
  (stripAnsi s).length

example : visibleLength "Hello World".data = 11 := by decide
example : visibleLength "\x1b[32mHello\x1b[0m \x1b[31mWorld\x1b[0m".data = 11 := by decide
example : visibleLength "".data = 0 := by decide
example : visibleLength "\x1b[1m\x1b[32mBold Green\x1b[0m".data = 10 := by decide

/- Basic lemmas about the scanner. -/

theorem stripAnsiGo_out_cons (c : Char) (t : List Char) (h : c ≠ '\x1b') :
    stripAnsiGo .out (c :: t) = c :: stripAnsiGo .out t := by
  simp [stripAnsiGo, h]

theorem stripAnsiGo_out_append (l t : List Char) (h : ∀ c ∈ l, c ≠ '\x1b') :
    stripAnsiGo .out (l ++ t) = l ++ stripAnsiGo .out t := by
  induction l with
  | nil => simp
  | cons c r ih =>
      have hc : c ≠ '\x1b' := h c (by simp)
      simp only [List.cons_append, stripAnsiGo_out_cons c _ hc]
      rw [ih (fun x hx => h x (by simp [hx]))]

theorem stripAnsiGo_csi_skip (l : List Char) (t : List Char)
    (h : ∀ c ∈ l, c.isAlpha = false) (a : Char) (ha : a.isAlpha = true) :
    stripAnsiGo .csi (l ++ a :: t) = stripAnsiGo .out t := by
  induction l with
  | nil => simp [stripAnsiGo, ha]
  | cons c r ih =>
      have hc : c.isAlpha = false := h c (by simp)
      simp only [List.cons_append, stripAnsiGo, hc]
      exact ih (fun x hx => h x (by simp [hx]))

theorem escFree_forall {s : List Char} (h : escFree s = true) :
    ∀ c ∈ s, c ≠ '\x1b' := by
  intro c hc
  have := List.all_eq_true.mp h c hc
  simpa using this

theorem stripAnsi_escFree_append (l t : List Char) (h : escFree l = true) :
    stripAnsi (l ++ t) = l ++ stripAnsi t :=
  stripAnsiGo_out_append l t (escFree_forall h)

theorem stripAnsi_escFree (l : List Char) (h : escFree l = true) :
    stripAnsi l = l := by
  have := stripAnsi_escFree_append l [] h
  simpa [stripAnsi, stripAnsiGo] using this

theorem visibleLength_escFree (l : List Char) (h : escFree l = true) :
    visibleLength l = l.length := by
  unfold visibleLength
  rw [stripAnsi_escFree l h]

/-- Stripping never lengthens a string (sharp bound per scanner state). -/
theorem stripAnsiGo_length_le (s : List Char) :
    (stripAnsiGo .out s).length ≤ s.length ∧
    (stripAnsiGo .esc s).length ≤ s.length + 1 ∧
    (stripAnsiGo .csi s).length ≤ s.length := by
  induction s with
  | nil => simp [stripAnsiGo]
  | cons c r ih =>
      obtain ⟨iho, ihe, ihc⟩ := ih
      refine ⟨?_, ?_, ?_⟩
      · by_cases hc : c = '\x1b'
        · simp only [stripAnsiGo, if_pos hc, List.length_cons]; omega
        · simp only [stripAnsiGo, if_neg hc, List.length_cons]; omega
      · by_cases hb : c = '['
        · simp only [stripAnsiGo, if_pos hb, List.length_cons]; omega
        · by_cases hc : c = '\x1b'
          · simp only [stripAnsiGo, if_neg hb, if_pos hc, List.length_cons]; omega
          · simp only [stripAnsiGo, if_neg hb, if_neg hc, List.length_cons]; omega
      · by_cases ha : c.isAlpha
        · simp only [stripAnsiGo, if_pos ha, List.length_cons]; omega
        · simp only [stripAnsiGo, if_neg ha, List.length_cons]; omega

theorem visibleLength_le_length (s : List Char) : visibleLength s ≤ s.length :=
  (stripAnsiGo_length_le s).1

/-! ## PathTruncator -/

/-- Modelled from the spec: `truncatePath` of the PathTruncator component
(its implementation file `main.ts` is absent from the provided sources; only
its test suite is present).  If the path fits within `maxLength` it is
returned unchanged; otherwise the literal ellipsis `"..."` is followed by the
last `maxLength - 3` characters of the path (`path.slice(path.length -
(maxLength - 3))`; for `maxLength ≤ 3` the slice is empty). -/
def truncatePath (path : List Char) (maxLength : Nat) : List Char :=
  if visibleLength path ≤ maxLength then path
  else '.' :: '.' :: '.' :: path.drop (path.length - (maxLength - 3))

example : truncatePath "src/file.ts".data 30 = "src/file.ts".data := by decide
example : truncatePath "very/long/path/to/some/deeply/nested/file.ts".data 20
    = "...ly/nested/file.ts".data := by decide
example : truncatePath "exactly/twenty/chars.ts".data 20
    = "...y/twenty/chars.ts".data := by decide
example : truncatePath "long/path/file.ts".data 5 = "...ts".data := by decide

/-! ## BoxLayout dimensions -/

/-- One staged file record as produced by the version-control collaborator. -/
structure StagedFileStat : Type where
  file : List Char
  additions : Nat
  deletions : Nat

/-- Derived box dimensions. -/
structure BoxDimensions : Type where
  header : List Char
  contentWidth : Nat

/-- Minimum total box width, a fixed constant (50 columns). -/
def minimumTotalWidth : Nat := 50

/-- The stat text appended to a row: `" (+A) (-D)"`. -/
def statSuffix (a d : Nat) : List Char :=
  " (+".data ++ (Nat.repr a).data ++ ") (-".data ++ (Nat.repr d).data ++ [')']

example : statSuffix 5 2 = " (+5) (-2)".data := by decide

/-- Modelled from the spec: a row's displayed text — the path truncated by
PathTruncator with the budget reduced to reserve room for the stat text,
then the stat text `" (+A) (-D)"`.  (The implementing `main.ts` is absent
from the provided sources.) -/
def formatRow (r : StagedFileStat) : List Char :=
  let suffix := statSuffix r.additions r.deletions
  truncatePath r.file (minimumTotalWidth - 2 - suffix.length) ++ suffix

/-- The header used by the commit-message box. -/
def stagedHeader : List Char := "Staged files to be committed:".data

/-- Largest element of a list of naturals (0 when empty). -/
def maxList (l : List Nat) : Nat := l.foldr max 0

theorem le_maxList {a : Nat} {l : List Nat} (h : a ∈ l) : a ≤ maxList l := by
  induction l with
  | nil => cases h
  | cons b t ih =>
      rcases List.mem_cons.mp h with rfl | hmem
      · exact le_max_left _ _
      · exact le_trans (ih hmem) (le_max_right _ _)

/-- Modelled from the spec: `calculateBoxValues` — the content width is the
maximum of the fixed floor `minimumTotalWidth - 2`, the header's visible
width, and the widest formatted row.  (The implementing `main.ts` is absent
from the provided sources; only its test suite is present.) -/
def calculateBoxValues (header : List Char) (files : List StagedFileStat) :
    BoxDimensions :=
  { header := header
    contentWidth :=
      max (minimumTotalWidth - 2)
        (max (visibleLength header)
          (maxList (files.map (fun r => visibleLength (formatRow r))))) }

example : (calculateBoxValues stagedHeader []).contentWidth = 48 := by decide
example :
    (calculateBoxValues stagedHeader
      [⟨"src/file1.ts".data, 5, 2⟩,
       ⟨"very/long/path/to/file2.ts".data, 0, 3⟩]).contentWidth = 48 := by decide
example :
    (calculateBoxValues stagedHeader
      [⟨"file.ts".data, 999, 999⟩]).contentWidth = 48 := by decide

/-! ## MessageCleaner -/

/-- The backtick character. -/
def tick : Char := '`'

/-- A triple-backtick fence. -/
def fence : List Char := [tick, tick, tick]

/-- Whether the string is wrapped in a fence pair: it is long enough for two
distinct fences, starts with three backticks and ends with three backticks. -/
def wrappedInFences (s : List Char) : Prop :=
  6 ≤ s.length ∧ s.take 3 = fence ∧ s.drop (s.length - 3) = fence

instance (s : List Char) : Decidable (wrappedInFences s) := by
  unfold wrappedInFences; infer_instance

/-- Modelled from the spec: strip a leading language tag — a run of letters
(case-insensitive) directly after the opening fence, recognised only when
followed by whitespace (e.g. a newline) or the end of the interior.  A letter
run followed by anything else is message content and is kept. -/
def stripLangTag (body : List Char) : List Char :=
  let tag := body.takeWhile Char.isAlpha
  if tag.isEmpty then body
  else
    match body.drop tag.length with
    | [] => []
    | c :: rest => if jsWhitespace c then c :: rest else body

/-- Modelled from the spec: `cleanCommitMessage` of the MessageCleaner
component (its implementation file `main.ts` is absent from the provided
sources; only its test suite is present).  When the input is wrapped in a
fence pair, both fences and a leading language tag are removed and the
interior is trimmed of surrounding whitespace; otherwise the input passes
through unchanged. -/
def cleanCommitMessage (s : List Char) : List Char :=
  if wrappedInFences s then
    jsTrim (stripLangTag ((s.drop 3).take (s.length - 6)))
  else s

example : cleanCommitMessage "```plaintext\nfeat: add new feature\n```".data
    = "feat: add new feature".data := by decide
example : cleanCommitMessage "```text\nfeat: add new feature\n```".data
    = "feat: add new feature".data := by decide
example : cleanCommitMessage "```PLAINTEXT\nfeat: add new feature\n```".data
    = "feat: add new feature".data := by decide
example : cleanCommitMessage "```plaintext\n\nfeat: add new feature\n```".data
    = "feat: add new feature".data := by decide
example : cleanCommitMessage "```feat: add new feature```".data
    = "feat: add new feature".data := by decide
example : cleanCommitMessage "```plaintext\n  feat: add new feature  \n```".data
    = "feat: add new feature".data := by decide
example : cleanCommitMessage "feat: add new feature".data
    = "feat: add new feature".data := by decide
example : cleanCommitMessage "```plaintext\n```".data = "".data := by decide

/-! ## Commit-time backtick stripping (`commitChanges`, generateCommitMessage.ts)

The function commitChanges runs a global regex replace whose pattern is the
alternation of "1 to 3 backticks anchored at the start" and "1 to 3 backticks
anchored at the end", replacing matches with the empty string.  The anchored
start alternative removes min 3 k backticks where k is the leading backtick
run, and the end-anchored alternative then removes min 3 m backticks where m
is the trailing backtick run of what is left (the regex scan continues after
the first match, so the two matches never overlap). -/

/-- Length of the leading run of the character `c`. -/
def countLeading (c : Char) : List Char → Nat
  | [] => 0
  | x :: r => if x = c then countLeading c r + 1 else 0

/-- The cleaned message computed inside `commitChanges` before spawning
`git commit` (generateCommitMessage.ts line 50). -/
def cleanedCommitMessage (s : List Char) : List Char :=
  let s1 := s.drop (min 3 (countLeading tick s))
  s1.take (s1.length - min 3 (countLeading tick s1.reverse))

example : cleanedCommitMessage "```feat: x```".data = "feat: x".data := by decide
example : cleanedCommitMessage "`feat: x".data = "feat: x".data := by decide
example : cleanedCommitMessage "```````".data = "`".data := by decide
example : cleanedCommitMessage "a`b".data = "a`b".data := by decide

/-! ## Empty-diff guard (`generateCommitMessage`, generateCommitMessage.ts) -/

/-- Outcome of `generateCommitMessage`: either a message returned
immediately with no API interaction, or a request to `callChatGPTApi` with
the given system prompt and diff. -/
inductive CommitGenResult : Type
  | immediate (msg : List Char) : CommitGenResult
  | fromApi (prompt diff : List Char) : CommitGenResult
deriving DecidableEq

/-- The fixed prompt sent to the API for commit-message generation. -/
def commitPrompt : List Char :=
  ("Please generate a concise commit message based on the following changes, "
    ++ "following the Conventional Commits specification").data

/-- Function `generateCommitMessage` from generateCommitMessage.ts: an empty
(or all-whitespace) diff short-circuits to the fixed message; otherwise the
remote API is invoked on the diff. -/
def generateCommitMessage (diff : List Char) : CommitGenResult :=
  if jsTrim diff = [] then .immediate "No changes to commit.".data
  else .fromApi commitPrompt diff

/-! ## Box renderer (`main`, generateCommitMessage.ts lines 82-104) -/

/-- Total width for the header/footer lines including border. -/
def totalWidth : Nat := 50

/-- The two border characters. -/
def borderWidth : Nat := 2

/-- Width available for content. -/
def contentWidth : Nat := totalWidth - borderWidth

/-- JavaScript `" ".repeat(n)`-style repetition: `RangeError` (modelled as
`none`) on a negative count. -/
def jsRepeat (c : Char) (n : Int) : Option (List Char) :=
  if n < 0 then none else some (List.replicate n.toNat c)

/-- chalk.blueBright opening SGR sequence. -/
def sgr94 : List Char := ['\x1b', '[', '9', '4', 'm']
/-- foreground-reset SGR sequence closing blueBright/yellowBright. -/
def sgr39 : List Char := ['\x1b', '[', '3', '9', 'm']
/-- chalk.bold opening SGR sequence. -/
def sgr1 : List Char := ['\x1b', '[', '1', 'm']
/-- SGR sequence closing bold. -/
def sgr22 : List Char := ['\x1b', '[', '2', '2', 'm']
/-- chalk.yellowBright opening SGR sequence. -/
def sgr93 : List Char := ['\x1b', '[', '9', '3', 'm']

/-- Styling applied by chalk.blueBright. -/
def blueBright (s : List Char) : List Char := sgr94 ++ s ++ sgr39
/-- Styling applied by chalk.bold. -/
def bold (s : List Char) : List Char := sgr1 ++ s ++ sgr22
/-- Styling applied by chalk.yellowBright. -/
def yellowBright (s : List Char) : List Char := sgr93 ++ s ++ sgr39

/-- Top border: `"┌" + "─".repeat(contentWidth) + "┐"` in blueBright. -/
def topBorder : List Char :=
  blueBright ('┌' :: List.replicate contentWidth '─' ++ ['┐'])

/-- Separator: `"├" + "─".repeat(contentWidth) + "┤"` in blueBright. -/
def separatorLine : List Char :=
  blueBright ('├' :: List.replicate contentWidth '─' ++ ['┤'])

/-- Bottom border: `"└" + "─".repeat(contentWidth) + "┘"` in blueBright. -/
def bottomBorder : List Char :=
  blueBright ('└' :: List.replicate contentWidth '─' ++ ['┘'])

/-- The header padding count: `Math.floor((contentWidth - header.length) / 2)`
as a (possibly negative) integer. -/
def headerPadLen (h : List Char) : Int :=
  Int.fdiv ((contentWidth : Int) - h.length) 2

/-- The header line
`"│" + padding + bold(header) + padding + paddingExtra + "│"`, where the
borders are blueBright, `padding` is `" ".repeat(Math.floor((contentWidth -
header.length) / 2))` (a `RangeError`, i.e. `none`, when that count is
negative) and `paddingExtra` is one space for odd header lengths. -/
def headerLine (h : List Char) : Option (List Char) :=
  (jsRepeat ' ' (headerPadLen h)).map (fun padding =>
    let paddingExtra := if h.length % 2 ≠ 0 then [' '] else ([] : List Char)
    blueBright ['│'] ++ padding ++ bold h ++ padding ++ paddingExtra
      ++ blueBright ['│'])

/-- The row padding count `Math.max(0, contentWidth - file.length - 1)`
(clamped, `-1` accounting for the space after the left border). -/
def rowPadLen (f : List Char) : Int :=
  max 0 ((contentWidth : Int) - f.length - 1)

/-- A staged-file row line
`blueBright("│ ") + yellowBright(file) + filePadding + blueBright("│")`. -/
def rowLine (f : List Char) : Option (List Char) :=
  (jsRepeat ' ' (rowPadLen f)).map (fun filePadding =>
    blueBright ['│', ' '] ++ yellowBright f ++ filePadding ++ blueBright ['│'])

/-! ## Visible width of styled text -/

theorem strip_out_escStep (r : List Char) :
    stripAnsiGo .out ('\x1b' :: r) = stripAnsiGo .esc r := by
  simp [stripAnsiGo]

theorem strip_esc_bracket (r : List Char) :
    stripAnsiGo .esc ('[' :: r) = stripAnsiGo .csi r := by
  simp [stripAnsiGo]

theorem strip_sgr94 (t : List Char) :
    stripAnsiGo .out (sgr94 ++ t) = stripAnsiGo .out t := by
  show stripAnsiGo .out ('\x1b' :: ('[' :: (['9', '4'] ++ 'm' :: t))) = _
  rw [strip_out_escStep, strip_esc_bracket]
  exact stripAnsiGo_csi_skip ['9', '4'] t (by decide) 'm' (by decide)

theorem strip_sgr39 (t : List Char) :
    stripAnsiGo .out (sgr39 ++ t) = stripAnsiGo .out t := by
  show stripAnsiGo .out ('\x1b' :: ('[' :: (['3', '9'] ++ 'm' :: t))) = _
  rw [strip_out_escStep, strip_esc_bracket]
  exact stripAnsiGo_csi_skip ['3', '9'] t (by decide) 'm' (by decide)

theorem strip_sgr1 (t : List Char) :
    stripAnsiGo .out (sgr1 ++ t) = stripAnsiGo .out t := by
  show stripAnsiGo .out ('\x1b' :: ('[' :: (['1'] ++ 'm' :: t))) = _
  rw [strip_out_escStep, strip_esc_bracket]
  exact stripAnsiGo_csi_skip ['1'] t (by decide) 'm' (by decide)

theorem strip_sgr22 (t : List Char) :
    stripAnsiGo .out (sgr22 ++ t) = stripAnsiGo .out t := by
  show stripAnsiGo .out ('\x1b' :: ('[' :: (['2', '2'] ++ 'm' :: t))) = _
  rw [strip_out_escStep, strip_esc_bracket]
  exact stripAnsiGo_csi_skip ['2', '2'] t (by decide) 'm' (by decide)

theorem strip_sgr93 (t : List Char) :
    stripAnsiGo .out (sgr93 ++ t) = stripAnsiGo .out t := by
  show stripAnsiGo .out ('\x1b' :: ('[' :: (['9', '3'] ++ 'm' :: t))) = _
  rw [strip_out_escStep, strip_esc_bracket]
  exact stripAnsiGo_csi_skip ['9', '3'] t (by decide) 'm' (by decide)

theorem strip_blueBright (s t : List Char) (hs : escFree s = true) :
    stripAnsiGo .out (blueBright s ++ t) = s ++ stripAnsiGo .out t := by
  have : blueBright s ++ t = sgr94 ++ (s ++ (sgr39 ++ t)) := by
    simp [blueBright, List.append_assoc]
  rw [this, strip_sgr94, stripAnsiGo_out_append s _ (escFree_forall hs),
    strip_sgr39]

theorem strip_bold (s t : List Char) (hs : escFree s = true) :
    stripAnsiGo .out (bold s ++ t) = s ++ stripAnsiGo .out t := by
  have : bold s ++ t = sgr1 ++ (s ++ (sgr22 ++ t)) := by
    simp [bold, List.append_assoc]
  rw [this, strip_sgr1, stripAnsiGo_out_append s _ (escFree_forall hs),
    strip_sgr22]

theorem strip_yellowBright (s t : List Char) (hs : escFree s = true) :
    stripAnsiGo .out (yellowBright s ++ t) = s ++ stripAnsiGo .out t := by
  have : yellowBright s ++ t = sgr93 ++ (s ++ (sgr39 ++ t)) := by
    simp [yellowBright, List.append_assoc]
  rw [this, strip_sgr93, stripAnsiGo_out_append s _ (escFree_forall hs),
    strip_sgr39]

theorem strip_out_nil : stripAnsiGo .out [] = [] := rfl

/-- Visible length of a blueBright-styled plain string on its own. -/
theorem visibleLength_blueBright (s : List Char) (hs : escFree s = true) :
    visibleLength (blueBright s) = s.length := by
  unfold visibleLength stripAnsi
  have : blueBright s = blueBright s ++ [] := by simp
  rw [this, strip_blueBright s [] hs, strip_out_nil]
  simp

theorem escFree_replicate (n : Nat) (c : Char) (hc : c ≠ '\x1b') :
    escFree (List.replicate n c) = true := by
  unfold escFree
  rw [List.all_eq_true]
  intro x hx
  rw [List.eq_of_mem_replicate hx]
  simpa using hc

example : visibleLength topBorder = 50 := by decide
example : visibleLength separatorLine = 50 := by decide
example : visibleLength bottomBorder = 50 := by decide

/-! ## Helper lemmas on runs, trims and escape-free strings -/

theorem countLeading_le_length (c : Char) (l : List Char) :
    countLeading c l ≤ l.length := by
  induction l with
  | nil => simp [countLeading]
  | cons x r ih =>
      by_cases hx : x = c
      · simp only [countLeading, if_pos hx, List.length_cons]; omega
      · simp only [countLeading, if_neg hx, List.length_cons]; omega

theorem take_eq_replicate_of_le_countLeading (c : Char) :
    ∀ (n : Nat) (l : List Char), n ≤ countLeading c l →
      l.take n = List.replicate n c := by
  intro n
  induction n with
  | zero => intro l _; simp
  | succ k ih =>
      intro l h
      cases l with
      | nil => simp [countLeading] at h
      | cons x r =>
          by_cases hx : x = c
          · subst hx
            rw [show countLeading x (x :: r) = countLeading x r + 1 from by
              simp [countLeading]] at h
            have hk : k ≤ countLeading x r := by omega
            simp [List.take_succ_cons, List.replicate_succ, ih r hk]
          · simp [countLeading, if_neg hx] at h

theorem eq_take_append_replicate_of_trailing (l : List Char) (m : Nat)
    (c : Char) (h : m ≤ countLeading c l.reverse) :
    l = l.take (l.length - m) ++ List.replicate m c := by
  have hm : m ≤ l.length := by
    have := countLeading_le_length c l.reverse
    simp only [List.length_reverse] at this
    omega
  have h1 : l.reverse.take m = List.replicate m c :=
    take_eq_replicate_of_le_countLeading c m l.reverse h
  have h2 : l = (l.reverse.drop m).reverse ++ List.replicate m c := by
    conv_lhs => rw [← l.reverse_reverse, ← List.take_append_drop m l.reverse]
    rw [List.reverse_append, h1, List.reverse_replicate]
  have hlen : (l.reverse.drop m).reverse.length = l.length - m := by
    simp
  have h3 : List.take (l.length - m) l = (l.reverse.drop m).reverse := by
    conv_lhs => rw [h2]
    have harith : ((l.reverse.drop m).reverse ++ List.replicate m c).length - m
        = (l.reverse.drop m).reverse.length := by
      simp [List.length_append, List.length_replicate, Nat.add_sub_cancel]
    rw [harith]
    exact List.take_left _ _
  rw [h3]
  exact h2

theorem jsTrim_decomp (s : List Char) :
    ∃ w1 w2, s = w1 ++ jsTrim s ++ w2
      ∧ (∀ c ∈ w1, jsWhitespace c = true)
      ∧ (∀ c ∈ w2, jsWhitespace c = true) := by
  refine ⟨s.takeWhile jsWhitespace,
    ((s.dropWhile jsWhitespace).reverse.takeWhile jsWhitespace).reverse,
    ?_, ?_, ?_⟩
  · have hsplit : s.dropWhile jsWhitespace
        = jsTrim s
          ++ ((s.dropWhile jsWhitespace).reverse.takeWhile jsWhitespace).reverse := by
      conv_lhs => rw [← (s.dropWhile jsWhitespace).reverse_reverse,
        ← List.takeWhile_append_dropWhile (p := jsWhitespace)
          (l := (s.dropWhile jsWhitespace).reverse)]
      rw [List.reverse_append]
      rfl
    conv_lhs => rw [← List.takeWhile_append_dropWhile (p := jsWhitespace) (l := s),
      hsplit]
    simp [List.append_assoc]
  · intro c hc
    exact List.mem_takeWhile_imp hc
  · intro c hc
    rw [List.mem_reverse] at hc
    exact List.mem_takeWhile_imp hc

theorem jsTrim_all_ws (s : List Char) (h : ∀ c ∈ s, jsWhitespace c = true) :
    jsTrim s = [] := by
  unfold jsTrim
  have h1 : s.dropWhile jsWhitespace = [] := List.dropWhile_eq_nil_iff.mpr h
  rw [h1]
  rfl

theorem escFree_drop (s : List Char) (n : Nat) (h : escFree s = true) :
    escFree (s.drop n) = true := by
  unfold escFree at *
  rw [List.all_eq_true] at *
  intro x hx
  exact h x (List.mem_of_mem_drop hx)

/-! ## Padding arithmetic of the renderer -/

theorem contentWidth_eq : contentWidth = 48 := rfl

theorem headerPadLen_eq (h : List Char) (hle : h.length ≤ contentWidth) :
    headerPadLen h = Int.ofNat ((contentWidth - h.length) / 2) := by
  unfold headerPadLen
  have hk : (contentWidth : Int) - h.length
      = ((contentWidth - h.length : Nat) : Int) := by
    omega
  rw [hk]
  show Int.fdiv (Int.ofNat (contentWidth - h.length)) 2 = _
  cases hn : contentWidth - h.length with
  | zero => rfl
  | succ k => rfl

theorem headerPadLen_neg (h : List Char) (hgt : contentWidth < h.length) :
    headerPadLen h < 0 := by
  unfold headerPadLen
  have hk : (contentWidth : Int) - h.length
      = Int.negSucc (h.length - (contentWidth + 1)) := by
    rw [Int.negSucc_eq]
    omega
  rw [hk]
  rw [show Int.fdiv (Int.negSucc (h.length - (contentWidth + 1))) 2
      = Int.negSucc ((h.length - (contentWidth + 1)) / 2) from rfl]
  exact Int.negSucc_lt_zero _

theorem headerLine_eq (h : List Char) (hle : h.length ≤ contentWidth) :
    headerLine h = some (blueBright ['│']
      ++ List.replicate ((contentWidth - h.length) / 2) ' '
      ++ bold h
      ++ List.replicate ((contentWidth - h.length) / 2) ' '
      ++ (if h.length % 2 ≠ 0 then [' '] else [])
      ++ blueBright ['│']) := by
  have hrep : ∀ k : Nat, jsRepeat ' ' (Int.ofNat k) = some (List.replicate k ' ') := by
    intro k
    unfold jsRepeat
    rw [if_neg (show ¬ Int.ofNat k < 0 from Int.not_lt.mpr (Int.ofNat_nonneg k))]
    rfl
  unfold headerLine
  rw [headerPadLen_eq h hle, hrep]
  rfl

theorem strip_blueBright_close : stripAnsiGo .out (blueBright ['│']) = ['│'] := by
  decide

theorem visibleLength_header_assembled (h : List Char) (hE : escFree h = true)
    (p : Nat) (extra : List Char) (hex : escFree extra = true) :
    visibleLength (blueBright ['│'] ++ List.replicate p ' ' ++ bold h
        ++ List.replicate p ' ' ++ extra ++ blueBright ['│'])
      = 1 + p + h.length + p + extra.length + 1 := by
  unfold visibleLength stripAnsi
  simp only [List.append_assoc]
  rw [strip_blueBright ['│'] _ (by decide),
    stripAnsiGo_out_append _ _ (escFree_forall (escFree_replicate p ' ' (by decide))),
    strip_bold _ _ hE,
    stripAnsiGo_out_append _ _ (escFree_forall (escFree_replicate p ' ' (by decide))),
    stripAnsiGo_out_append _ _ (escFree_forall hex),
    strip_blueBright_close]
  simp [List.length_append, List.length_replicate]
  omega

theorem headerLine_width (h : List Char) (hE : escFree h = true)
    (hle : h.length ≤ contentWidth) :
    ∃ l, headerLine h = some l ∧ visibleLength l = totalWidth := by
  refine ⟨_, headerLine_eq h hle, ?_⟩
  by_cases hodd : h.length % 2 ≠ 0
  · rw [if_pos hodd,
      visibleLength_header_assembled h hE ((contentWidth - h.length) / 2) [' ']
        (by decide)]
    rw [contentWidth_eq] at *
    show 1 + (48 - h.length) / 2 + h.length + (48 - h.length) / 2 + 1 + 1 = 50
    omega
  · rw [if_neg hodd,
      visibleLength_header_assembled h hE ((contentWidth - h.length) / 2) []
        (by decide)]
    rw [contentWidth_eq] at *
    show 1 + (48 - h.length) / 2 + h.length + (48 - h.length) / 2 + 0 + 1 = 50
    omega

theorem rowPadLen_nonneg (f : List Char) : 0 ≤ rowPadLen f :=
  le_max_left _ _

theorem rowPadLen_toNat (f : List Char) :
    (rowPadLen f).toNat = contentWidth - (f.length + 1) := by
  unfold rowPadLen
  omega

theorem rowLine_eq (f : List Char) :
    rowLine f = some (blueBright ['│', ' '] ++ yellowBright f
      ++ List.replicate (rowPadLen f).toNat ' ' ++ blueBright ['│']) := by
  unfold rowLine jsRepeat
  rw [if_neg (by exact Int.not_lt.mpr (rowPadLen_nonneg f))]
  rfl

theorem visibleLength_row_assembled (f : List Char) (hE : escFree f = true)
    (p : Nat) :
    visibleLength (blueBright ['│', ' '] ++ yellowBright f
        ++ List.replicate p ' ' ++ blueBright ['│'])
      = 3 + f.length + p := by
  unfold visibleLength stripAnsi
  simp only [List.append_assoc]
  rw [strip_blueBright ['│', ' '] _ (by decide),
    strip_yellowBright _ _ hE,
    stripAnsiGo_out_append _ _ (escFree_forall (escFree_replicate p ' ' (by decide))),
    strip_blueBright_close]
  simp [List.length_append, List.length_replicate]
  omega

theorem rowLine_width (f : List Char) (hE : escFree f = true) :
    ∃ l, rowLine f = some l
      ∧ visibleLength l = 3 + f.length + (contentWidth - (f.length + 1)) := by
  refine ⟨_, rowLine_eq f, ?_⟩
  rw [visibleLength_row_assembled f hE _, rowPadLen_toNat]

theorem escFree_cons {c : Char} {t : List Char} (hc : c ≠ '\x1b')
    (ht : escFree t = true) : escFree (c :: t) = true := by
  unfold escFree at *
  rw [List.all_cons, Bool.and_eq_true]
  exact ⟨by simpa using hc, ht⟩

theorem escFree_append {a b : List Char} (ha : escFree a = true)
    (hb : escFree b = true) : escFree (a ++ b) = true := by
  unfold escFree at *
  rw [List.all_eq_true] at *
  intro x hx
  rcases List.mem_append.mp hx with hxa | hxb
  · exact ha x hxa
  · exact hb x hxb

/-! ## Claims -/

/-- C1: for every header string and every list of rows, the content width
computed by `calculateBoxValues` equals the maximum of `minimumTotalWidth -
2`, the header's visible width and the largest visible width over the rows'
formatted texts; in particular it is at least 48 and at least the width of
every formatted row. -/
theorem calculateBoxValues_width (h : List Char) (files : List StagedFileStat) :
    (calculateBoxValues h files).contentWidth
        = max (minimumTotalWidth - 2)
            (max (visibleLength h)
              (maxList (files.map fun r => visibleLength (formatRow r))))
      ∧ 48 ≤ (calculateBoxValues h files).contentWidth
      ∧ ∀ r ∈ files,
          visibleLength (formatRow r) ≤ (calculateBoxValues h files).contentWidth := by
  refine ⟨rfl, ?_, ?_⟩
  · show 48 ≤ max (minimumTotalWidth - 2) _
    have h48 : minimumTotalWidth - 2 = 48 := rfl
    exact le_trans (Nat.le_of_eq h48.symm) (Nat.le_max_left _ _)
  · intro r hr
    show visibleLength (formatRow r)
      ≤ max (minimumTotalWidth - 2) (max (visibleLength h) (maxList _))
    have h1 : visibleLength (formatRow r)
        ≤ maxList (files.map fun r => visibleLength (formatRow r)) :=
      le_maxList (List.mem_map_of_mem _ hr)
    exact le_trans h1 (le_trans (Nat.le_max_right _ _) (Nat.le_max_right _ _))

theorem calculateBoxValues_width_witness :
    visibleLength (formatRow ⟨"src/file1.ts".data, 5, 2⟩)
      ≤ (calculateBoxValues stagedHeader
          [⟨"src/file1.ts".data, 5, 2⟩]).contentWidth :=
  (calculateBoxValues_width stagedHeader _).2.2 _ (List.mem_singleton_self _)

/-- C2: the text displayed for a staged-file row is the file path truncated
by PathTruncator with the budget reduced by the stat text's length,
concatenated with the stat text " (+A) (-D)" built from the row's additions
and deletions. -/
theorem formatRow_displayed_text (r : StagedFileStat) :
    formatRow r
        = truncatePath r.file
            (minimumTotalWidth - 2 - (statSuffix r.additions r.deletions).length)
          ++ statSuffix r.additions r.deletions
      ∧ statSuffix r.additions r.deletions
        = (" (+" ++ Nat.repr r.additions ++ ") (-"
            ++ Nat.repr r.deletions ++ ")").data := by
  refine ⟨rfl, ?_⟩
  simp [statSuffix, String.data_append]

/-- C9: for every diff that is empty or consists only of whitespace,
`generateCommitMessage` returns the fixed message "No changes to commit."
immediately, without constructing a remote-API request. -/
theorem generateCommitMessage_blank_diff (diff : List Char)
    (h : ∀ c ∈ diff, jsWhitespace c = true) :
    generateCommitMessage diff
      = CommitGenResult.immediate "No changes to commit.".data := by
  unfold generateCommitMessage
  rw [if_pos (jsTrim_all_ws diff h)]

theorem generateCommitMessage_blank_diff_witness :
    generateCommitMessage "  \n ".data
      = CommitGenResult.immediate "No changes to commit.".data :=
  generateCommitMessage_blank_diff _ (by decide)

/-- C10: the commit-time backtick stripping removes at most three backticks
from the start and at most three from the end of the message, and leaves
every other character unchanged. -/
theorem cleanedCommitMessage_strips_at_most_three (s : List Char) :
    ∃ k m, k ≤ 3 ∧ m ≤ 3
      ∧ s = List.replicate k tick ++ cleanedCommitMessage s
            ++ List.replicate m tick := by
  refine ⟨min 3 (countLeading tick s),
    min 3 (countLeading tick (s.drop (min 3 (countLeading tick s))).reverse),
    Nat.min_le_left _ _, Nat.min_le_left _ _, ?_⟩
  set k := min 3 (countLeading tick s) with hkdef
  set s1 := s.drop k with hs1def
  set m := min 3 (countLeading tick s1.reverse) with hmdef
  have htake : s.take k = List.replicate k tick :=
    take_eq_replicate_of_le_countLeading tick k s (Nat.min_le_right _ _)
  have hsplit : s = List.replicate k tick ++ s1 := by
    conv_lhs => rw [← List.take_append_drop k s]
    rw [htake]
  have htail : s1 = s1.take (s1.length - m) ++ List.replicate m tick :=
    eq_take_append_replicate_of_trailing s1 m tick (Nat.min_le_right _ _)
  have hclean : cleanedCommitMessage s = s1.take (s1.length - m) := rfl
  rw [hclean]
  conv_lhs => rw [hsplit, htail]
  simp [List.append_assoc]

/- Helpers for the MessageCleaner claims. -/

theorem cleanCommitMessage_wrapped (mid : List Char) :
    cleanCommitMessage (fence ++ mid ++ fence)
      = jsTrim (stripLangTag mid) := by
  have hlen : (fence ++ mid ++ fence).length = mid.length + 6 := by
    simp [fence]
  have htake : (fence ++ mid ++ fence).take 3 = fence := by
    have hassoc : fence ++ mid ++ fence = fence ++ (mid ++ fence) := by
      simp [List.append_assoc]
    rw [hassoc, show (3 : Nat) = fence.length from rfl]
    exact List.take_left _ _
  have hdrop3 : (fence ++ mid ++ fence).drop 3 = mid ++ fence := by
    have hassoc : fence ++ mid ++ fence = fence ++ (mid ++ fence) := by
      simp [List.append_assoc]
    rw [hassoc, show (3 : Nat) = fence.length from rfl]
    exact List.drop_left _ _
  have hdropEnd : (fence ++ mid ++ fence).drop
      ((fence ++ mid ++ fence).length - 3) = fence := by
    have h1 : (fence ++ mid ++ fence).length - 3 = (fence ++ mid).length := by
      rw [hlen]
      simp [fence]
    rw [h1]
    exact List.drop_left _ _
  have hw : wrappedInFences (fence ++ mid ++ fence) :=
    ⟨by omega, htake, hdropEnd⟩
  have hmid : ((fence ++ mid ++ fence).drop 3).take
      ((fence ++ mid ++ fence).length - 6) = mid := by
    rw [hdrop3, hlen, show mid.length + 6 - 6 = mid.length from by omega]
    exact List.take_left _ _
  unfold cleanCommitMessage
  rw [if_pos hw, hmid]

theorem takeWhile_append_stop {p : Char → Bool} (l : List Char) (d : Char)
    (t : List Char) (hl : ∀ c ∈ l, p c = true) (hd : p d = false) :
    (l ++ d :: t).takeWhile p = l := by
  induction l with
  | nil => simp [List.takeWhile_cons, hd]
  | cons c r ih =>
      have hc : p c = true := hl c (by simp)
      simp only [List.cons_append, List.takeWhile_cons, hc, if_pos]
      rw [ih (fun x hx => hl x (by simp [hx]))]

theorem jsTrim_cons_ws (c : Char) (t : List Char) (hc : jsWhitespace c = true) :
    jsTrim (c :: t) = jsTrim t := by
  unfold jsTrim
  rw [List.dropWhile_cons, if_pos hc]

theorem stripLangTag_tagged (tag body : List Char) (htag : tag ≠ [])
    (halpha : ∀ c ∈ tag, c.isAlpha = true) :
    stripLangTag (tag ++ '\n' :: body) = '\n' :: body := by
  have ht : (tag ++ '\n' :: body).takeWhile Char.isAlpha = tag :=
    takeWhile_append_stop tag '\n' body halpha (by decide)
  have hie : tag.isEmpty = false := by
    cases tag with
    | nil => exact absurd rfl htag
    | cons a r => rfl
  unfold stripLangTag
  rw [ht]
  simp only [hie, Bool.false_eq_true, if_false]
  rw [List.drop_left]
  simp [jsWhitespace]

/-- C4: cleaning a message wrapped in a fenced code block with a language
tag removes the fences and the tag and trims surrounding whitespace; in
particular the two concrete inputs from the test suite clean to
"feat: add new feature" and to the empty string. -/
theorem cleanCommitMessage_tagged_fence (tag body : List Char)
    (htag : tag ≠ []) (halpha : ∀ c ∈ tag, c.isAlpha = true) :
    cleanCommitMessage (fence ++ tag ++ '\n' :: body ++ fence) = jsTrim body
  ∧ cleanCommitMessage "```plaintext\nfeat: add new feature\n```".data
      = "feat: add new feature".data
  ∧ cleanCommitMessage "```plaintext\n```".data = [] := by
  refine ⟨?_, by decide, by decide⟩
  have hassoc : fence ++ tag ++ '\n' :: body ++ fence
      = fence ++ (tag ++ '\n' :: body) ++ fence := by
    simp [List.append_assoc]
  rw [hassoc, cleanCommitMessage_wrapped,
    stripLangTag_tagged tag body htag halpha,
    jsTrim_cons_ws '\n' body (by decide)]

theorem cleanCommitMessage_tagged_fence_witness :
    cleanCommitMessage (fence ++ "plaintext".data ++ '\n' :: "feat: ok".data
        ++ fence) = jsTrim "feat: ok".data :=
  (cleanCommitMessage_tagged_fence "plaintext".data "feat: ok".data
    (by decide) (by decide)).1

theorem ne_tick_of_alpha {c : Char} (h : c.isAlpha = true) : c ≠ tick := by
  intro he
  rw [he] at h
  exact absurd h (by decide)

theorem ne_tick_of_ws {c : Char} (h : jsWhitespace c = true) : c ≠ tick := by
  intro he
  rw [he] at h
  exact absurd h (by decide)

theorem stripLangTag_decomp (mid : List Char) :
    ∃ a, mid = a ++ stripLangTag mid ∧ ∀ c ∈ a, c.isAlpha = true := by
  obtain ⟨t, ht⟩ := List.takeWhile_prefix (p := Char.isAlpha) (l := mid)
  set w := mid.takeWhile Char.isAlpha with hwdef
  have hdropt : mid.drop w.length = t := by
    conv_lhs => rw [← ht]
    exact List.drop_left _ _
  by_cases hie : w.isEmpty = true
  · refine ⟨[], ?_, by simp⟩
    unfold stripLangTag
    rw [← hwdef]
    simp only [hie, if_pos]
    simp
  · cases t with
    | nil =>
        have hres : stripLangTag mid = [] := by
          unfold stripLangTag
          rw [← hwdef]
          simp only [hie, Bool.false_eq_true, if_false]
          rw [hdropt]
        refine ⟨mid, by rw [hres]; simp, ?_⟩
        have hmidw : w = mid := by simpa using ht
        intro c hc
        rw [← hmidw, hwdef] at hc
        exact List.mem_takeWhile_imp hc
    | cons d rest =>
        have hres : stripLangTag mid
            = if jsWhitespace d = true then d :: rest else mid := by
          unfold stripLangTag
          rw [← hwdef]
          simp only [hie, Bool.false_eq_true, if_false]
          rw [hdropt]
        by_cases hws : jsWhitespace d = true
        · refine ⟨w, ?_, ?_⟩
          · rw [hres, if_pos hws]
            exact ht.symm
          · intro x hx
            rw [hwdef] at hx
            exact List.mem_takeWhile_imp hx
        · refine ⟨[], ?_, by simp⟩
          rw [hres, if_neg hws]
          simp

/-- C5: an input with no wrapping fence pair passes through message cleaning
unchanged; on a fenced input only the outer fence pair is removed, and every
backtick of the interior survives into the cleaned output (only letters of a
language tag and whitespace are dropped around it). -/
theorem cleanCommitMessage_frame (s : List Char) :
    (¬ wrappedInFences s → cleanCommitMessage s = s)
  ∧ (wrappedInFences s → ∃ pre post,
      s = fence ++ (pre ++ cleanCommitMessage s ++ post) ++ fence
        ∧ (∀ c ∈ pre, c ≠ tick) ∧ (∀ c ∈ post, c ≠ tick)) := by
  constructor
  · intro hnw
    unfold cleanCommitMessage
    rw [if_neg hnw]
  · intro hw
    obtain ⟨hlen, htake, hdrop⟩ := hw
    set mid := (s.drop 3).take (s.length - 6) with hmiddef
    have h2 : (s.drop 3).drop (s.length - 6) = fence := by
      rw [List.drop_drop]
      rw [show 3 + (s.length - 6) = s.length - 3 from by omega]
      exact hdrop
    have hs : s = fence ++ mid ++ fence := by
      calc s = s.take 3 ++ s.drop 3 := (List.take_append_drop 3 s).symm
        _ = fence ++ (mid ++ fence) := by
            rw [htake]
            conv_lhs => rw [← List.take_append_drop (s.length - 6) (s.drop 3)]
            rw [h2]
        _ = fence ++ mid ++ fence := by simp [List.append_assoc]
    have hclean : cleanCommitMessage s = jsTrim (stripLangTag mid) := by
      unfold cleanCommitMessage
      rw [if_pos ⟨hlen, htake, hdrop⟩]
    obtain ⟨a, hmid_eq, halpha⟩ := stripLangTag_decomp mid
    obtain ⟨w1, w2, hx, hw1, hw2⟩ := jsTrim_decomp (stripLangTag mid)
    refine ⟨a ++ w1, w2, ?_, ?_, ?_⟩
    · rw [hclean]
      have hmid2 : mid = (a ++ w1) ++ jsTrim (stripLangTag mid) ++ w2 := by
        conv_lhs => rw [hmid_eq, hx]
        simp [List.append_assoc]
      rw [hs, ← hmid2]
    · intro c hc
      rcases List.mem_append.mp hc with hca | hcw
      · exact ne_tick_of_alpha (halpha c hca)
      · exact ne_tick_of_ws (hw1 c hcw)
    · intro c hc
      exact ne_tick_of_ws (hw2 c hc)

theorem cleanCommitMessage_frame_witness :
    cleanCommitMessage "feat: add new feature".data
      = "feat: add new feature".data :=
  (cleanCommitMessage_frame "feat: add new feature".data).1 (by decide)

/-- C8 (amended): a path whose visible width fits within the budget is
returned unchanged; an escape-free path that is too wide truncates to the
ellipsis followed by the last maxLength - 3 characters, with visible width
exactly maxLength and ending in a suffix of the original path.  (For paths
containing escape sequences the visible width of the result can fall short
of maxLength, see the counterexample.) -/
theorem truncatePath_spec (path : List Char) (maxLength : Nat) :
    (visibleLength path ≤ maxLength → truncatePath path maxLength = path)
  ∧ (escFree path = true → maxLength < visibleLength path → 3 < maxLength →
      truncatePath path maxLength
          = '.' :: '.' :: '.' :: path.drop (path.length - (maxLength - 3))
        ∧ visibleLength (truncatePath path maxLength) = maxLength
        ∧ (truncatePath path maxLength).drop 3 <:+ path) := by
  constructor
  · intro hle
    unfold truncatePath
    rw [if_pos hle]
  · intro hE hgt h3
    have hnle : ¬ visibleLength path ≤ maxLength := by omega
    have heq : truncatePath path maxLength
        = '.' :: '.' :: '.' :: path.drop (path.length - (maxLength - 3)) := by
      unfold truncatePath
      rw [if_neg hnle]
    have hlenpath : visibleLength path = path.length := visibleLength_escFree path hE
    refine ⟨heq, ?_, ?_⟩
    · rw [heq]
      have hEall : escFree ('.' :: '.' :: '.'
          :: path.drop (path.length - (maxLength - 3))) = true :=
        escFree_cons (by decide) (escFree_cons (by decide) (escFree_cons (by decide)
          (escFree_drop path _ hE)))
      rw [visibleLength_escFree _ hEall]
      simp only [List.length_cons, List.length_drop]
      omega
    · rw [heq]
      show path.drop (path.length - (maxLength - 3)) <:+ path
      exact List.drop_suffix _ _

theorem truncatePath_spec_witness :
    truncatePath "very/long/path/to/some/deeply/nested/file.ts".data 20
        = '.' :: '.' :: '.'
          :: ("very/long/path/to/some/deeply/nested/file.ts".data.drop
            ("very/long/path/to/some/deeply/nested/file.ts".data.length - (20 - 3)))
      ∧ visibleLength
          (truncatePath "very/long/path/to/some/deeply/nested/file.ts".data 20) = 20
      ∧ (truncatePath "very/long/path/to/some/deeply/nested/file.ts".data 20).drop 3
          <:+ "very/long/path/to/some/deeply/nested/file.ts".data :=
  (truncatePath_spec _ _).2 (by decide) (by decide) (by decide)

/-- C8 counterexample: for a path that embeds a complete escape sequence in
its retained suffix, the truncated result's visible width is 4, not the
requested 8, although 8 < visibleWidth(path) and 8 > 3. -/
theorem truncatePath_width_counterexample :
    3 < 8 ∧ 8 < visibleLength "aaaaaaaaaa\x1b[0mb".data
      ∧ visibleLength (truncatePath "aaaaaaaaaa\x1b[0mb".data 8) ≠ 8 := by
  decide

/-- C7: the row padding is never negative; a row whose content " " + file
fits within the content width is padded with literal spaces to exactly the
content width, and an over-wide row gets padding clamped to zero. -/
theorem rowLine_pads_to_contentWidth (f : List Char) (hE : escFree f = true) :
    0 ≤ rowPadLen f
  ∧ (visibleLength (' ' :: f) ≤ contentWidth →
      ∃ pad, jsRepeat ' ' (rowPadLen f) = some pad
        ∧ (∀ c ∈ pad, c = ' ')
        ∧ visibleLength (' ' :: f ++ pad) = contentWidth)
  ∧ (contentWidth < visibleLength (' ' :: f) → rowPadLen f = 0) := by
  have hvl : visibleLength (' ' :: f) = f.length + 1 := by
    rw [visibleLength_escFree _ (escFree_cons (by decide) hE)]
    simp
  refine ⟨rowPadLen_nonneg f, ?_, ?_⟩
  · intro hle
    rw [hvl] at hle
    refine ⟨List.replicate (rowPadLen f).toNat ' ', ?_, ?_, ?_⟩
    · unfold jsRepeat
      rw [if_neg (Int.not_lt.mpr (rowPadLen_nonneg f))]
    · intro c hc
      exact List.eq_of_mem_replicate hc
    · have hEp : escFree (' ' :: f ++ List.replicate (rowPadLen f).toNat ' ') = true :=
        escFree_cons (by decide)
          (escFree_append hE (escFree_replicate _ ' ' (by decide)))
      rw [visibleLength_escFree _ hEp]
      simp only [List.length_cons, List.length_append, List.length_replicate,
        rowPadLen_toNat]
      omega
  · intro hgt
    rw [hvl] at hgt
    unfold rowPadLen
    omega

theorem rowLine_pads_witness :
    ∃ pad, jsRepeat ' ' (rowPadLen "src/file1.ts".data) = some pad
      ∧ (∀ c ∈ pad, c = ' ')
      ∧ visibleLength (' ' :: "src/file1.ts".data ++ pad) = contentWidth :=
  (rowLine_pads_to_contentWidth _ (by decide)).2.1 (by decide)

/-- C6 (amended): visible-width computation and path truncation are total
with the expected bounds, and row rendering always returns a value thanks to
the zero-clamp; header-line rendering, however, returns a value exactly when
the header is at most the content width — for a wider header the negative
padding count makes the space repetition fail. -/
theorem rendering_totality :
    (∀ s : List Char, visibleLength s ≤ s.length)
  ∧ (∀ p : List Char, ∀ m : Nat, (truncatePath p m).length ≤ p.length + 3)
  ∧ (∀ f : List Char, (rowLine f).isSome = true)
  ∧ (∀ h : List Char, (headerLine h).isSome = true ↔ h.length ≤ contentWidth) := by
  refine ⟨visibleLength_le_length, ?_, ?_, ?_⟩
  · intro p m
    unfold truncatePath
    by_cases hle : visibleLength p ≤ m
    · rw [if_pos hle]
      omega
    · rw [if_neg hle]
      simp only [List.length_cons, List.length_drop]
      omega
  · intro f
    rw [rowLine_eq f]
    rfl
  · intro h
    constructor
    · intro hs
      by_contra hgt
      push_neg at hgt
      have hneg := headerPadLen_neg h hgt
      unfold headerLine jsRepeat at hs
      rw [if_pos hneg] at hs
      simp at hs
    · intro hle
      rw [headerLine_eq h hle]
      rfl

/-- C6 counterexample: a header one character wider than the content width
makes header rendering fail (the padding repeat count is negative), so the
rendering pipeline is not total on all inputs. -/
theorem headerLine_wide_header_counterexample :
    contentWidth < (List.replicate 49 'a').length
      ∧ headerLine (List.replicate 49 'a') = none := by
  refine ⟨by decide, ?_⟩
  unfold headerLine jsRepeat
  rw [if_pos (headerPadLen_neg _ (by decide))]
  rfl

/-- C3 (amended): for an escape-free header no wider than the content width
and escape-free row paths of length at most contentWidth - 1, every line of
the rendered box — top border, header line, separator, row lines, bottom
border — has visible width contentWidth + 2.  (A longer row path produces a
wider row line, see the counterexample.) -/
theorem box_lines_uniform (h : List Char) (files : List (List Char))
    (hE : escFree h = true) (hle : h.length ≤ contentWidth)
    (hfiles : ∀ f ∈ files, escFree f = true ∧ f.length + 1 ≤ contentWidth) :
    visibleLength topBorder = contentWidth + borderWidth
  ∧ (∃ l, headerLine h = some l ∧ visibleLength l = contentWidth + borderWidth)
  ∧ visibleLength separatorLine = contentWidth + borderWidth
  ∧ (∀ f ∈ files, ∃ l, rowLine f = some l
      ∧ visibleLength l = contentWidth + borderWidth)
  ∧ visibleLength bottomBorder = contentWidth + borderWidth := by
  refine ⟨by decide, ?_, by decide, ?_, by decide⟩
  · obtain ⟨l, hl, hwid⟩ := headerLine_width h hE hle
    exact ⟨l, hl, by rw [hwid]; rfl⟩
  · intro f hf
    obtain ⟨hfE, hfle⟩ := hfiles f hf
    obtain ⟨l, hl, hwid⟩ := rowLine_width f hfE
    refine ⟨l, hl, ?_⟩
    rw [hwid]
    show 3 + f.length + (contentWidth - (f.length + 1)) = contentWidth + borderWidth
    rw [contentWidth_eq] at *
    show 3 + f.length + (48 - (f.length + 1)) = 48 + 2
    omega

theorem box_lines_uniform_witness :
    ∃ l, headerLine stagedHeader = some l
      ∧ visibleLength l = contentWidth + borderWidth :=
  (box_lines_uniform stagedHeader ["src/file1.ts".data] (by decide) (by decide)
    (by decide)).2.1

/-- C3 counterexample: a 60-character row path yields a row line of visible
width 63, not contentWidth + 2 = 50, so box lines are not uniform for
arbitrarily long paths. -/
theorem box_row_width_counterexample :
    (rowLine (List.replicate 60 'a')).map visibleLength = some 63
  ∧ 63 ≠ contentWidth + borderWidth := by
  decide

end Hypedoc
